import Mathlib

/-!
Verification of the reth trie-db cursor layer and root-computation entry
points against their specification.

The development shallowly embeds:
  * `crates/trie/trie-db/src/trie_cursor/database_cursors.rs`
    (account / storage trie cursor wrappers);
  * `crates/trie/trie-db/src/trie.rs` (`state_root::from_tx`,
    `state_root::incremental_root*`);
  * `bin/reth/src/commands/recover/storage_tries.rs` (the storage-trie
    recovery sweep and its root consistency check).

The underlying key-value engine (`reth_db` cursors) and the `reth_trie`
`StateRoot` walker are not part of the shown sources; where a claim depends
on them they are modelled from the specification, and each such definition
carries a doc comment starting with `Modelled from the spec:`.
-/

/-- A nibble path: a list of 4-bit values (0–15).  Embeds
`reth_primitives::trie::Nibbles` at the level the cursor layer uses it
(an ordered sequence of nibble values, one per byte in storage). -/
abbrev Nibbles := List Nat

/-- Hashed 256-bit words (account hashes, node hashes) are embedded as
natural numbers; the cursor layer never inspects their bit structure. -/
abbrev B256 := Nat

/-- Strict lexicographic order on nibble paths, nibble by nibble; a strict
prefix precedes its extensions.  This is the comparator the ordered
storage engine realises for `StoredNibbles` keys. -/
def nibblesLt : Nibbles → Nibbles → Bool
  | _, [] => false
  | [], _ :: _ => true
  | a :: as, b :: bs =>
    if a < b then true
    else if a = b then nibblesLt as bs
    else false

/-- Non-strict companion of `nibblesLt`. -/
def nibblesLe (a b : Nibbles) : Bool := !nibblesLt b a

theorem nibblesLt_irrefl (a : Nibbles) : nibblesLt a a = false := by
  induction a with
  | nil => rfl
  | cons x xs ih => simp [nibblesLt, ih]

theorem nibblesLt_cons_iff {a b : Nat} {as bs : Nibbles} :
    nibblesLt (a :: as) (b :: bs) = true ↔
      a < b ∨ (a = b ∧ nibblesLt as bs = true) := by
  simp only [nibblesLt]
  split_ifs with h1 h2
  · simp [h1]
  · simp [h1, h2]
  · simp [h1, h2]

theorem nibblesLt_trans {a b c : Nibbles} (hab : nibblesLt a b = true)
    (hbc : nibblesLt b c = true) : nibblesLt a c = true := by
  induction a generalizing b c with
  | nil =>
    cases c with
    | nil => cases b <;> simp [nibblesLt] at hab hbc
    | cons z zs => rfl
  | cons x xs ih =>
    cases b with
    | nil => simp [nibblesLt] at hab
    | cons y ys =>
      cases c with
      | nil => simp [nibblesLt] at hbc
      | cons z zs =>
        rcases nibblesLt_cons_iff.1 hab with h | ⟨h, hab'⟩
        · rcases nibblesLt_cons_iff.1 hbc with h2 | ⟨h2, _⟩
          · exact nibblesLt_cons_iff.2 (Or.inl (Nat.lt_trans h h2))
          · exact nibblesLt_cons_iff.2 (Or.inl (h2 ▸ h))
        · rcases nibblesLt_cons_iff.1 hbc with h2 | ⟨h2, hbc'⟩
          · exact nibblesLt_cons_iff.2 (Or.inl (h ▸ h2))
          · exact nibblesLt_cons_iff.2
              (Or.inr ⟨h.trans h2, ih hab' hbc'⟩)

theorem nibblesLt_total {a b : Nibbles} (hne : a ≠ b) :
    nibblesLt a b = true ∨ nibblesLt b a = true := by
  induction a generalizing b with
  | nil =>
    cases b with
    | nil => exact absurd rfl hne
    | cons y ys => left; rfl
  | cons x xs ih =>
    cases b with
    | nil => right; rfl
    | cons y ys =>
      simp only [nibblesLt]
      rcases Nat.lt_trichotomy x y with h | h | h
      · left; simp [h]
      · subst h
        have hne' : xs ≠ ys := by
          intro hxy; exact hne (by rw [hxy])
        rcases ih hne' with h2 | h2
        · left; simp [h2]
        · right; simp [h2]
      · right; simp [h]

theorem nibblesLt_asymm {a b : Nibbles} (h : nibblesLt a b = true) :
    nibblesLt b a = false := by
  by_contra hc
  have hba : nibblesLt b a = true := by
    cases hx : nibblesLt b a with
    | false => exact absurd hx hc
    | true => rfl
  have := nibblesLt_trans h hba
  rw [nibblesLt_irrefl] at this
  exact Bool.noConfusion this

theorem nibblesLt_eq_of_not {a b : Nibbles} (hab : nibblesLt a b = false)
    (hba : nibblesLt b a = false) : a = b := by
  by_contra hne
  rcases nibblesLt_total hne with h | h
  · rw [hab] at h; exact Bool.noConfusion h
  · rw [hba] at h; exact Bool.noConfusion h

/-- Compact branch node, embedding
`reth_primitives::trie::BranchNodeCompact`: existence mask, tree mask,
hash mask, ordered child hashes, optional root hash. -/
structure BranchNodeCompact where
  state_mask : Nat
  tree_mask : Nat
  hash_mask : Nat
  hashes : List B256
  root_hash : Option B256
deriving DecidableEq, Repr

/-- One value of the `StoragesTrie` dup table: a nibble sub-key paired with
a branch node (`reth_primitives::trie::StorageTrieEntry`). -/
structure StorageTrieEntry where
  nibbles : Nibbles
  node : BranchNodeCompact
deriving DecidableEq, Repr

/-- The `AccountsTrie` table: an ordered table keyed by nibble path,
embedded as the list of its entries in key order. -/
abbrev AccountsTrie := List (Nibbles × BranchNodeCompact)

/-- The `StoragesTrie` dup table: entries keyed by hashed account address
(outer key) and ordered within a group by nibble sub-key, embedded as the
flat list of its entries in (outer key, sub-key) order. -/
abbrev StoragesTrie := List (B256 × StorageTrieEntry)

/-- Modelled from the spec: the underlying engine's seek-by-key-subkey
operation (`reth_db::cursor::DbDupCursorRO::seek_by_key_subkey`, not part
of the shown sources).  Positions at the given outer key and returns the
first entry in that group whose sub-key is ≥ the requested sub-key —
i.e. "a raw engine seek may return the *next* sub-key under the same
outer key". -/
def dbSeekByKeySubkey (t : StoragesTrie) (key : B256) (subkey : Nibbles) :
    Option StorageTrieEntry :=
  (t.find? (fun e => e.1 = key && nibblesLe subkey e.2.nibbles)).map (·.2)

/-- `DatabaseStorageTrieCursor::seek_exact`
(database_cursors.rs lines 214–223): a raw `seek_by_key_subkey` under the
cursor's bound `hashed_address`, then the load-bearing re-check that the
returned sub-key equals the requested key exactly. -/
def DatabaseStorageTrieCursor.seek_exact (t : StoragesTrie)
    (hashed_address : B256) (key : Nibbles) :
    Option (Nibbles × BranchNodeCompact) :=
  ((dbSeekByKeySubkey t hashed_address key).filter
      (fun e => e.nibbles = key)).map (fun e => (e.nibbles, e.node))

/-- `DatabaseStorageTrieCursor::seek` (database_cursors.rs lines 226–231):
the raw engine seek without the exactness re-check. -/
def DatabaseStorageTrieCursor.seek (t : StoragesTrie)
    (hashed_address : B256) (key : Nibbles) :
    Option (Nibbles × BranchNodeCompact) :=
  (dbSeekByKeySubkey t hashed_address key).map (fun e => (e.nibbles, e.node))

/-- Modelled from the spec: the engine's typed storage error
(`reth_db::DatabaseError`, not part of the shown sources); its structure
is irrelevant to the cursor layer, which only propagates it. -/
structure DatabaseError where
  code : Nat
deriving DecidableEq, Repr

/-- Outcome of a cursor operation, distinguishing a normal return, a
recoverable typed error, and a programming-error signal (a Rust panic,
e.g. `unimplemented!`), which is not a recoverable error value. -/
inductive CursorResult (α : Type) where
  | ok (value : α)
  | err (e : DatabaseError)
  | panic (msg : String)
deriving DecidableEq, Repr

/-- Modelled from the spec: the engine's upsert into the ordered
`AccountsTrie` table (`reth_db::cursor::DbCursorRW::upsert`, not part of
the shown sources) — inserts the entry at its key position, replacing the
value when the key is already present, preserving key order. -/
def dbUpsert (t : AccountsTrie) (key : Nibbles) (value : BranchNodeCompact) :
    AccountsTrie :=
  match t with
  | [] => [(key, value)]
  | e :: rest =>
    if nibblesLt key e.1 then (key, value) :: e :: rest
    else if key = e.1 then (key, value) :: rest
    else e :: dbUpsert rest key value

/-- Modelled from the spec: the engine's seek on the ordered
`AccountsTrie` table (`reth_db::cursor::DbCursorRO::seek`) — returns the
first entry, in table order, whose key is ≥ the given key. -/
def dbSeek (t : AccountsTrie) (key : Nibbles) :
    Option (Nibbles × BranchNodeCompact) :=
  t.find? (fun e => nibblesLe key e.1)

/-- Modelled from the spec: the engine's exact seek on the `AccountsTrie`
table (`reth_db::cursor::DbCursorRO::seek_exact`). -/
def dbSeekExact (t : AccountsTrie) (key : Nibbles) :
    Option (Nibbles × BranchNodeCompact) :=
  t.find? (fun e => e.1 = key)

/-- `DatabaseAccountTrieCursor::seek` (database_cursors.rs lines 116–118):
delegates to the engine seek, unwrapping the `StoredNibbles` newtype. -/
def DatabaseAccountTrieCursor.seek (t : AccountsTrie) (key : Nibbles) :
    Option (Nibbles × BranchNodeCompact) :=
  dbSeek t key

/-- `DatabaseAccountTrieCursor::seek_exact`
(database_cursors.rs lines 108–113): delegates to the engine exact
seek. -/
def DatabaseAccountTrieCursor.seek_exact (t : AccountsTrie)
    (key : Nibbles) : Option (Nibbles × BranchNodeCompact) :=
  dbSeekExact t key

/-- `DatabaseAccountTrieCursor::upsert`
(database_cursors.rs lines 138–140): delegates to the engine upsert. -/
def DatabaseAccountTrieCursor.upsert (t : AccountsTrie) (key : Nibbles)
    (value : BranchNodeCompact) : AccountsTrie :=
  dbUpsert t key value

/-- `DatabaseAccountTrieCursor::delete_current_duplicates`
(database_cursors.rs lines 134–136): unconditionally
`unimplemented!("Duplicate keys are not supported for accounts trie")` —
a panic, in every cursor state, touching no entry. -/
def DatabaseAccountTrieCursor.delete_current_duplicates
    (_t : AccountsTrie) : CursorResult AccountsTrie :=
  CursorResult.panic "Duplicate keys are not supported for accounts trie"

/-- Entries listed in strictly increasing key order (what a full walk of
an ordered table yields). -/
def strictlyAscending {α : Type} (key : α → Nibbles) (t : List α) : Prop :=
  List.Pairwise (fun a b => nibblesLt (key a) (key b) = true) t

theorem nibblesLe_refl (a : Nibbles) : nibblesLe a a = true := by
  simp [nibblesLe, nibblesLt_irrefl]

theorem nibblesLe_of_lt {a b : Nibbles} (h : nibblesLt a b = true) :
    nibblesLe a b = true := by
  simp [nibblesLe, nibblesLt_asymm h]

theorem nibblesLe_trans_lt {a b c : Nibbles} (hab : nibblesLe a b = true)
    (hbc : nibblesLt b c = true) : nibblesLe a c = true := by
  simp only [nibblesLe, Bool.not_eq_true'] at hab ⊢
  cases hca : nibblesLt c a with
  | false => rfl
  | true =>
    have h := nibblesLt_trans hbc hca
    rw [hab] at h
    exact Bool.noConfusion h

theorem dbUpsert_mem {t : AccountsTrie} {k : Nibbles}
    {v : BranchNodeCompact} {x : Nibbles × BranchNodeCompact}
    (hx : x ∈ dbUpsert t k v) : x = (k, v) ∨ x ∈ t := by
  induction t with
  | nil =>
    simp [dbUpsert] at hx
    exact Or.inl hx
  | cons e rest ih =>
    simp only [dbUpsert] at hx
    split_ifs at hx with g1 g2
    · rcases List.mem_cons.1 hx with hx1 | hx1
      · exact Or.inl hx1
      · exact Or.inr hx1
    · rcases List.mem_cons.1 hx with hx1 | hx1
      · exact Or.inl hx1
      · exact Or.inr (List.mem_cons_of_mem e hx1)
    · rcases List.mem_cons.1 hx with hx1 | hx1
      · exact Or.inr (by simp [hx1])
      · rcases ih hx1 with hy | hy
        · exact Or.inl hy
        · exact Or.inr (List.mem_cons_of_mem e hy)

theorem dbUpsert_sorted {t : AccountsTrie} (k : Nibbles)
    (v : BranchNodeCompact) (hs : strictlyAscending Prod.fst t) :
    strictlyAscending Prod.fst (dbUpsert t k v) := by
  induction t with
  | nil => simp [dbUpsert, strictlyAscending]
  | cons e rest ih =>
    rcases List.pairwise_cons.1 hs with ⟨hhead, htail⟩
    simp only [dbUpsert]
    split_ifs with h1 h2
    · refine List.pairwise_cons.2 ⟨?_, hs⟩
      intro x hx
      rcases List.mem_cons.1 hx with hx1 | hx1
      · rw [hx1]; exact h1
      · exact nibblesLt_trans h1 (hhead x hx1)
    · refine List.pairwise_cons.2 ⟨?_, htail⟩
      intro x hx
      rw [h2]
      exact hhead x hx
    · refine List.pairwise_cons.2 ⟨?_, ih htail⟩
      intro x hx
      rcases dbUpsert_mem hx with hx1 | hx1
      · rw [hx1]
        have h3 : e.1 ≠ k := fun hek => h2 hek.symm
        rcases nibblesLt_total h3 with h4 | h4
        · exact h4
        · rw [h4] at h1; exact absurd rfl h1
      · exact hhead x hx1

/-- On a sorted table, the engine seek returns a stored entry whose key is
the smallest stored key ≥ the requested key. -/
theorem dbSeek_min {k : Nibbles} :
    ∀ {t : AccountsTrie}, strictlyAscending Prod.fst t →
      ∀ {k' : Nibbles} {v' : BranchNodeCompact},
        dbSeek t k = some (k', v') →
        (k', v') ∈ t ∧ nibblesLe k k' = true ∧
          ∀ e ∈ t, nibblesLe k e.1 = true → nibblesLe k' e.1 = true
  | [], _, _, _, h => by simp [dbSeek] at h
  | e :: rest, hs, k', v', h => by
    rcases List.pairwise_cons.1 hs with ⟨hhead, htail⟩
    by_cases hpe : nibblesLe k e.1 = true
    · rw [dbSeek, List.find?_cons_of_pos _ (by simpa using hpe)] at h
      have he : e = (k', v') := by injection h
      have hk : e.1 = k' := by rw [he]
      refine ⟨by rw [← he]; exact List.mem_cons_self e rest,
        by rw [← hk]; exact hpe, ?_⟩
      intro f hf _
      rcases List.mem_cons.1 hf with h1 | h1
      · rw [h1, ← hk]
        exact nibblesLe_refl _
      · rw [← hk]
        exact nibblesLe_of_lt (hhead f h1)
    · rw [dbSeek, List.find?_cons_of_neg _ (by simpa using hpe)] at h
      rcases dbSeek_min htail h with ⟨hmem, hle, hmin⟩
      refine ⟨List.mem_cons_of_mem e hmem, hle, ?_⟩
      intro f hf hkf
      rcases List.mem_cons.1 hf with h1 | h1
      · rw [h1] at hkf
        exact absurd hkf hpe
      · exact hmin f h1 hkf

/-- When the engine seek finds nothing, every stored key is < the
requested key. -/
theorem dbSeek_none {t : AccountsTrie} {k : Nibbles}
    (h : dbSeek t k = none) : ∀ e ∈ t, nibblesLt e.1 k = true := by
  intro e he
  have hp := List.find?_eq_none.1 h e he
  simp only [nibblesLe, Bool.not_eq_true, Bool.not_eq_true'] at hp
  simpa using hp

/-- The account trie table obtained by upserting the given
(nibble-path, node) pairs in order, through the cursor, starting from an
empty table. -/
def buildAccountsTrie (inserts : List (Nibbles × BranchNodeCompact)) :
    AccountsTrie :=
  inserts.foldl (fun acc e => DatabaseAccountTrieCursor.upsert acc e.1 e.2) []

theorem foldl_upsert_sorted (inserts : List (Nibbles × BranchNodeCompact)) :
    ∀ (acc : AccountsTrie), strictlyAscending Prod.fst acc →
      strictlyAscending Prod.fst
        (inserts.foldl (fun acc e => DatabaseAccountTrieCursor.upsert acc e.1 e.2) acc) := by
  induction inserts with
  | nil => intro acc hacc; simpa using hacc
  | cons p ps ih =>
    intro acc hacc
    simpa using ih (DatabaseAccountTrieCursor.upsert acc p.1 p.2)
      (dbUpsert_sorted p.1 p.2 hacc)

theorem buildAccountsTrie_sorted
    (inserts : List (Nibbles × BranchNodeCompact)) :
    strictlyAscending Prod.fst (buildAccountsTrie inserts) :=
  foldl_upsert_sorted inserts [] (by simp [strictlyAscending])

/-- The branch node used by `test_account_trie_order`
(database_cursors.rs lines 322–328): masks `0b0000_0010_0000_0001`,
no hashes, no root hash. -/
def testBranchNode : BranchNodeCompact :=
  ⟨0b0000001000000001, 0b0000001000000001, 0, [], none⟩

/-- A sample branch node with a child hash, for concrete witnesses. -/
def sampleBranchNode : BranchNodeCompact := ⟨1, 1, 1, [7], none⟩

/-- The dup-key order of the `StoragesTrie` table: first by outer key
(hashed account address), then by nibble sub-key — the ordering the
storage engine realises natively. -/
def storageKeyLt (a b : B256 × StorageTrieEntry) : Bool :=
  decide (a.1 < b.1) ||
    (decide (a.1 = b.1) && nibblesLt a.2.nibbles b.2.nibbles)

/-- On a table sorted in dup-key order, the engine seek-by-key-subkey for
a stored (outer key, sub-key) pair returns exactly that entry: every
earlier entry has a smaller outer key or a smaller sub-key under the same
outer key, so it fails the seek predicate. -/
theorem dbSeekByKeySubkey_of_mem :
    ∀ {t : StoragesTrie},
      List.Pairwise (fun a b => storageKeyLt a b = true) t →
      ∀ {ha : B256} {k : Nibbles} {n : BranchNodeCompact},
        (ha, ⟨k, n⟩) ∈ t → dbSeekByKeySubkey t ha k = some ⟨k, n⟩ := by
  intro t hsort
  induction t with
  | nil =>
    intro ha k n hmem
    exact absurd hmem (List.not_mem_nil _)
  | cons e rest ih =>
    intro ha k n hmem
    rcases List.pairwise_cons.1 hsort with ⟨hhead, htail⟩
    rcases List.mem_cons.1 hmem with hmem1 | hmem1
    · unfold dbSeekByKeySubkey
      rw [List.find?_cons_of_pos]
      · rw [← hmem1]
        rfl
      · rw [← hmem1]
        simp [nibblesLe_refl]
    · have hlt := hhead _ hmem1
      have hfail : (decide (e.1 = ha) && nibblesLe k e.2.nibbles) = false := by
        simp only [storageKeyLt, Bool.or_eq_true, Bool.and_eq_true,
          decide_eq_true_eq] at hlt
        rcases hlt with hlt | ⟨heq, hlt⟩
        · simp [Nat.ne_of_lt hlt]
        · simp only [heq, decide_True, Bool.true_and]
          simp [nibblesLe, hlt]
      have hneg : ¬ ((decide (e.1 = ha) && nibblesLe k e.2.nibbles) = true) := by
        rw [hfail]
        simp
      unfold dbSeekByKeySubkey
      rw [List.find?_cons_of_neg _ (by exact hneg)]
      exact ih htail hmem1

/-- C1: `seek_exact` on a storage trie cursor bound to a hashed account
address returns an entry only when its sub-key equals the requested key
exactly: when the raw engine seek lands on a different (next) sub-key
under the same outer key, `seek_exact` returns `none` instead of that
entry, and when the requested sub-key is stored under the bound account
(in the engine's dup-key order), `seek_exact` returns exactly its
node. -/
theorem claimC1_storage_seek_exact_only_exact
    (t : StoragesTrie) (ha : B256) (k : Nibbles) :
    (∀ k' n, DatabaseStorageTrieCursor.seek_exact t ha k = some (k', n) →
      k' = k) ∧
    (∀ e, dbSeekByKeySubkey t ha k = some e → e.nibbles ≠ k →
      DatabaseStorageTrieCursor.seek_exact t ha k = none) ∧
    (∀ n, List.Pairwise (fun a b => storageKeyLt a b = true) t →
      (ha, ⟨k, n⟩) ∈ t →
      DatabaseStorageTrieCursor.seek_exact t ha k = some (k, n)) := by
  refine ⟨?_, ?_, ?_⟩
  · intro k' n h
    unfold DatabaseStorageTrieCursor.seek_exact at h
    cases hraw : dbSeekByKeySubkey t ha k with
    | none => rw [hraw] at h; simp [Option.filter] at h
    | some e =>
      rw [hraw] at h
      by_cases hp : e.nibbles = k
      · simp only [Option.filter, hp] at h
        simp at h
        rw [← h.1, hp]
      · simp [Option.filter, hp] at h
  · intro e he hne
    unfold DatabaseStorageTrieCursor.seek_exact
    rw [he]
    simp [Option.filter, hne]
  · intro n hsort hmem
    unfold DatabaseStorageTrieCursor.seek_exact
    rw [dbSeekByKeySubkey_of_mem hsort hmem]
    simp [Option.filter]

/-- Witness for C1: an account (outer key 5) storing sub-keys A = `[1]`
and B = `[2]` in order — `seek_exact [1]` returns exactly A's node; and
with only B stored, the raw engine seek for `[1]` lands on the next
sub-key `[2]` while `seek_exact` returns `none` rather than B's entry. -/
theorem claimC1_storage_seek_exact_only_exact_witness :
    DatabaseStorageTrieCursor.seek_exact
        [(5, ⟨[1], sampleBranchNode⟩), (5, ⟨[2], testBranchNode⟩)] 5 [1] =
      some ([1], sampleBranchNode) ∧
    dbSeekByKeySubkey [(5, ⟨[2], sampleBranchNode⟩)] 5 [1] =
      some ⟨[2], sampleBranchNode⟩ ∧
    DatabaseStorageTrieCursor.seek_exact
      [(5, ⟨[2], sampleBranchNode⟩)] 5 [1] = none :=
  ⟨(claimC1_storage_seek_exact_only_exact
        [(5, ⟨[1], sampleBranchNode⟩), (5, ⟨[2], testBranchNode⟩)]
        5 [1]).2.2 sampleBranchNode (by decide) (by decide),
    by decide,
    (claimC1_storage_seek_exact_only_exact
        [(5, ⟨[2], sampleBranchNode⟩)] 5 [1]).2.1
      ⟨[2], sampleBranchNode⟩ (by decide) (by decide)⟩

/-- C3: upserting any set of (nibble-path, node) pairs through the account
trie cursor yields a table whose full walk is in strictly increasing
nibble-lexicographic key order, and on which `seek(k)` returns the
smallest stored key ≥ k, or `none` exactly when every stored key is
< k. -/
theorem claimC3_account_cursor_ordering
    (inserts : List (Nibbles × BranchNodeCompact)) (k : Nibbles) :
    strictlyAscending Prod.fst (buildAccountsTrie inserts) ∧
    (∀ k' v',
      DatabaseAccountTrieCursor.seek (buildAccountsTrie inserts) k =
          some (k', v') →
        (k', v') ∈ buildAccountsTrie inserts ∧ nibblesLe k k' = true ∧
          ∀ e ∈ buildAccountsTrie inserts,
            nibblesLe k e.1 = true → nibblesLe k' e.1 = true) ∧
    (DatabaseAccountTrieCursor.seek (buildAccountsTrie inserts) k = none →
      ∀ e ∈ buildAccountsTrie inserts, nibblesLt e.1 k = true) := by
  refine ⟨buildAccountsTrie_sorted inserts, ?_, ?_⟩
  · intro k' v' h
    exact dbSeek_min (buildAccountsTrie_sorted inserts) h
  · intro h
    exact dbSeek_none h

/-- Witness for C3: inserting keys `[1]` and `[3]`, `seek [2]` returns the
smallest stored key ≥ `[2]`, namely `[3]`. -/
theorem claimC3_account_cursor_ordering_witness :
    ([3], sampleBranchNode) ∈
        buildAccountsTrie [([1], sampleBranchNode), ([3], sampleBranchNode)] ∧
    nibblesLe [2] [3] = true ∧
    ∀ e ∈ buildAccountsTrie [([1], sampleBranchNode), ([3], sampleBranchNode)],
      nibblesLe [2] e.1 = true → nibblesLe [3] e.1 = true :=
  (claimC3_account_cursor_ordering
      [([1], sampleBranchNode), ([3], sampleBranchNode)] [2]).2.1
    [3] sampleBranchNode (by decide)

/-- C4: `DatabaseAccountTrieCursor::delete_current_duplicates` signals a
programming error (a panic, not a recoverable `err` value) in every
cursor state; since no `ok` state is ever produced, it never deletes an
entry and never returns normally. -/
theorem claimC4_account_delete_current_duplicates_panics
    (t : AccountsTrie) :
    DatabaseAccountTrieCursor.delete_current_duplicates t =
      CursorResult.panic "Duplicate keys are not supported for accounts trie" :=
  rfl

/-- C9: after upserting the nibble-path keys `0303040e`, `030305`,
`03030500`, `0303050a` (with arbitrary valid branch nodes) into the
account trie, a full walk yields exactly that key sequence, and
`seek 0303040f` returns the key `030305`
(test_account_trie_order, database_cursors.rs lines 305–343). -/
theorem claimC9_account_trie_order_scenario
    (n1 n2 n3 n4 : BranchNodeCompact) :
    (buildAccountsTrie
        [([3, 3, 4, 14], n1), ([3, 3, 5], n2),
         ([3, 3, 5, 0], n3), ([3, 3, 5, 10], n4)]).map Prod.fst =
      [[3, 3, 4, 14], [3, 3, 5], [3, 3, 5, 0], [3, 3, 5, 10]] ∧
    (DatabaseAccountTrieCursor.seek
        (buildAccountsTrie
          [([3, 3, 4, 14], n1), ([3, 3, 5], n2),
           ([3, 3, 5, 0], n3), ([3, 3, 5, 10], n4)])
        [3, 3, 4, 15]).map Prod.fst = some [3, 3, 5] := by
  constructor
  · simp [buildAccountsTrie, DatabaseAccountTrieCursor.upsert, dbUpsert,
      nibblesLt]
  · simp [buildAccountsTrie, DatabaseAccountTrieCursor.upsert, dbUpsert,
      DatabaseAccountTrieCursor.seek, dbSeek, nibblesLt, nibblesLe,
      List.find?]

/-- Modelled from the spec: the engine's delete-all-duplicates-for-current-
key operation (`reth_db::cursor::DbDupCursorRW::delete_current_duplicates`,
not part of the shown sources) — with the cursor positioned on the entry
at index `pos`, removes every entry sharing that entry's outer key;
errors when the cursor has no current entry. -/
def dbDeleteCurrentDuplicates (t : StoragesTrie) (pos : Nat) :
    CursorResult StoragesTrie :=
  match t[pos]? with
  | none => CursorResult.err ⟨0⟩
  | some cur => CursorResult.ok (t.filter (fun e => e.1 ≠ cur.1))

/-- `DatabaseStoragesTrieCursor::delete_current_duplicates`
(database_cursors.rs lines 272–274): delegates to the engine
operation. -/
def DatabaseStoragesTrieCursor.delete_current_duplicates
    (t : StoragesTrie) (pos : Nat) : CursorResult StoragesTrie :=
  dbDeleteCurrentDuplicates t pos

/-- C5: with the dup cursor positioned inside account X's group,
`delete_current_duplicates` removes only entries whose outer key is X;
every entry belonging to another account's storage-trie group survives,
with the table's relative order preserved. -/
theorem claimC5_dup_delete_frame (t : StoragesTrie) (pos : Nat)
    (X : B256) (cur : B256 × StorageTrieEntry)
    (hcur : t[pos]? = some cur) (hX : cur.1 = X) :
    ∃ t', DatabaseStoragesTrieCursor.delete_current_duplicates t pos =
        CursorResult.ok t' ∧
      t' = t.filter (fun e => e.1 ≠ X) ∧
      (∀ e ∈ t, e.1 ≠ X → e ∈ t') ∧
      (∀ e ∈ t', e ∈ t ∧ e.1 ≠ X) := by
  refine ⟨t.filter (fun e => e.1 ≠ X), ?_, rfl, ?_, ?_⟩
  · unfold DatabaseStoragesTrieCursor.delete_current_duplicates
      dbDeleteCurrentDuplicates
    rw [hcur]
    simp only [hX]
  · intro e he hne
    exact List.mem_filter.2 ⟨he, by simpa using hne⟩
  · intro e he
    rcases List.mem_filter.1 he with ⟨h1, h2⟩
    exact ⟨h1, by simpa using h2⟩

/-- Witness for C5: a table holding groups for accounts 1 and 2; deleting
the duplicates of the current entry (account 1) keeps account 2's entry
untouched. -/
theorem claimC5_dup_delete_frame_witness :
    ∃ t', DatabaseStoragesTrieCursor.delete_current_duplicates
        [(1, ⟨[0], sampleBranchNode⟩), (1, ⟨[1], sampleBranchNode⟩),
         (2, ⟨[0], sampleBranchNode⟩)] 0 = CursorResult.ok t' ∧
      t' = [(1, ⟨[0], sampleBranchNode⟩), (1, ⟨[1], sampleBranchNode⟩),
            (2, ⟨[0], sampleBranchNode⟩)].filter (fun e => e.1 ≠ 1) ∧
      (∀ e ∈ [(1, ⟨[0], sampleBranchNode⟩), (1, ⟨[1], sampleBranchNode⟩),
              (2, ⟨[0], sampleBranchNode⟩)], e.1 ≠ 1 → e ∈ t') ∧
      (∀ e ∈ t',
        e ∈ [(1, ⟨[0], sampleBranchNode⟩), (1, ⟨[1], sampleBranchNode⟩),
             (2, ⟨[0], sampleBranchNode⟩)] ∧ e.1 ≠ 1) :=
  claimC5_dup_delete_frame
    [(1, ⟨[0], sampleBranchNode⟩), (1, ⟨[1], sampleBranchNode⟩),
     (2, ⟨[0], sampleBranchNode⟩)] 0 1 (1, ⟨[0], sampleBranchNode⟩)
    (by decide) (by decide)

/-- The `HashedAccounts` table: flat hashed account leaves keyed by hashed
address; the recovery sweep only tests key presence, so leaf payloads are
abstracted to naturals. -/
abbrev HashedAccounts := List (B256 × Nat)

/-- Modelled from the spec: the engine's exact seek on the
`HashedAccounts` table (`reth_db::cursor::DbCursorRO::seek_exact`), used
by `Command::execute` to test whether an owning account exists in hashed
state. -/
def hashedAccountSeekExact (accounts : HashedAccounts) (key : B256) :
    Option (B256 × Nat) :=
  accounts.find? (fun e => e.1 = key)

/-- The recovery sweep loop (storage_tries.rs lines 69–79): starting from
the first `StoragesTrie` entry, whenever the current entry's owning
account has no entry in `HashedAccounts`, delete all entries sharing its
outer key; then advance to the next remaining entry. -/
def sweepStorageTries (accounts : HashedAccounts) (t : StoragesTrie) :
    StoragesTrie :=
  match t with
  | [] => []
  | e :: rest =>
    if (hashedAccountSeekExact accounts e.1).isNone then
      sweepStorageTries accounts (rest.filter (fun f => f.1 ≠ e.1))
    else
      e :: sweepStorageTries accounts rest
termination_by t.length
decreasing_by
  · simpa using Nat.lt_succ_of_le (List.length_filter_le _ rest)
  · simp

theorem sweepStorageTries_eq_filter (accounts : HashedAccounts) :
    ∀ (t : StoragesTrie),
      sweepStorageTries accounts t =
        t.filter (fun e => (hashedAccountSeekExact accounts e.1).isSome) := by
  have H : ∀ (n : Nat) (t : StoragesTrie), t.length ≤ n →
      sweepStorageTries accounts t =
        t.filter (fun e => (hashedAccountSeekExact accounts e.1).isSome) := by
    intro n
    induction n with
    | zero =>
      intro t ht
      have ht0 : t = [] := List.eq_nil_of_length_eq_zero (Nat.le_zero.1 ht)
      subst ht0
      simp [sweepStorageTries]
    | succ n ih =>
      intro t ht
      cases t with
      | nil => simp [sweepStorageTries]
      | cons e rest =>
        have hrest : rest.length ≤ n := by
          simp only [List.length_cons] at ht
          exact Nat.le_of_succ_le_succ ht
        rw [sweepStorageTries]
        by_cases habs : (hashedAccountSeekExact accounts e.1).isNone = true
        · rw [if_pos habs]
          have hlen : (rest.filter (fun f => f.1 ≠ e.1)).length ≤ n :=
            le_trans (List.length_filter_le _ rest) hrest
          rw [ih _ hlen, List.filter_filter]
          have hePresent : (hashedAccountSeekExact accounts e.1).isSome = false := by
            cases hx : hashedAccountSeekExact accounts e.1 with
            | none => rfl
            | some a => rw [hx] at habs; simp at habs
          rw [List.filter_cons_of_neg (by simpa using hePresent)]
          apply List.filter_congr
          intro a _
          by_cases hae : a.1 = e.1
          · simp [hae, hePresent]
          · simp [hae]
        · rw [if_neg habs]
          rw [ih rest hrest]
          have hePresent : (hashedAccountSeekExact accounts e.1).isSome = true := by
            cases hx : hashedAccountSeekExact accounts e.1 with
            | none => rw [hx] at habs; simp at habs
            | some a => rfl
          rw [List.filter_cons_of_pos (by simpa using hePresent)]
  intro t
  exact H t.length t le_rfl

/-- C7: the recovery sweep removes exactly the storage-trie groups whose
owning account is absent from the hashed-accounts table: the resulting
table is the original filtered to the entries whose owner exists in
hashed state.  In particular, for stored addresses H1 (present) and H2
(absent), every H2 entry is deleted and every H1 entry kept. -/
theorem claimC7_sweep_removes_exactly_orphans
    (accounts : HashedAccounts) (t : StoragesTrie) :
    sweepStorageTries accounts t =
      t.filter (fun e => (hashedAccountSeekExact accounts e.1).isSome) :=
  sweepStorageTries_eq_filter accounts t

/-- Outcome data of a failed recovery consistency check: the expected
(best header) state root and the received (recomputed) one, as reported
by the `eyre::bail!` in storage_tries.rs lines 83–87. -/
structure RecoveryError where
  expected : B256
  received : B256
deriving DecidableEq, Repr

/-- The tail of `Command::execute` (storage_tries.rs lines 65–93): sweep
orphaned storage-trie groups, recompute the state root over the
post-sweep transaction state (`computeRoot` abstracts
`StateRoot::from_tx(tx_mut).root()`), and commit only when it equals the
best header's recorded state root; otherwise bail, reporting both hash
values, with the write transaction left uncommitted.  `Except.ok` is the
committed table state; `Except.error` means the transaction was dropped
uncommitted. -/
def recoverStorageTries (accounts : HashedAccounts) (t : StoragesTrie)
    (bestHeaderStateRoot : B256) (computeRoot : StoragesTrie → B256) :
    Except RecoveryError StoragesTrie :=
  let swept := sweepStorageTries accounts t
  let state_root := computeRoot swept
  if state_root ≠ bestHeaderStateRoot then
    Except.error ⟨bestHeaderStateRoot, state_root⟩
  else
    Except.ok swept

/-- C6: whenever the recomputed state root differs from the best header's
recorded state root, the recovery flow returns an error carrying both the
expected and the received hash and never commits; it commits exactly when
the two roots are equal. -/
theorem claimC6_recovery_mismatch_no_commit (accounts : HashedAccounts)
    (t : StoragesTrie) (expected : B256) (computeRoot : StoragesTrie → B256) :
    (computeRoot (sweepStorageTries accounts t) ≠ expected →
      recoverStorageTries accounts t expected computeRoot =
        Except.error ⟨expected, computeRoot (sweepStorageTries accounts t)⟩) ∧
    (∀ t', recoverStorageTries accounts t expected computeRoot =
        Except.ok t' →
      computeRoot (sweepStorageTries accounts t) = expected ∧
        t' = sweepStorageTries accounts t) := by
  constructor
  · intro hne
    unfold recoverStorageTries
    rw [if_pos hne]
  · intro t' h
    unfold recoverStorageTries at h
    by_cases heq : computeRoot (sweepStorageTries accounts t) = expected
    · rw [if_neg (by simpa using heq)] at h
      injection h with h1
      exact ⟨heq, h1.symm⟩
    · rw [if_pos heq] at h
      exact absurd h (by simp)

/-- Witness for C6: with a root function returning 42, recovery against an
expected root of 7 errors with both values and does not commit, while an
expected root of 42 commits the swept (empty) table. -/
theorem claimC6_recovery_mismatch_no_commit_witness :
    recoverStorageTries [] [(1, ⟨[0], sampleBranchNode⟩)] 7 (fun _ => 42) =
      Except.error ⟨7, 42⟩ ∧
    ((42 : B256) = 42 ∧
      sweepStorageTries [] [(1, ⟨[0], sampleBranchNode⟩)] =
        sweepStorageTries [] [(1, ⟨[0], sampleBranchNode⟩)]) :=
  ⟨(claimC6_recovery_mismatch_no_commit
      [] [(1, ⟨[0], sampleBranchNode⟩)] 7 (fun _ => 42)).1 (by decide),
    (claimC6_recovery_mismatch_no_commit
      [] [(1, ⟨[0], sampleBranchNode⟩)] 42 (fun _ => 42)).2
      (sweepStorageTries [] [(1, ⟨[0], sampleBranchNode⟩)])
      (by simp [recoverStorageTries])⟩

/-- Prefix-set bundle (`reth_trie::prefix_set::TriePrefixSets`): the
account-trie prefix set, the per-account storage prefix sets, and the
destroyed accounts.  `Default` is the empty bundle. -/
structure TriePrefixSets where
  account_prefix_set : List Nibbles
  storage_prefix_sets : List (B256 × List Nibbles)
  destroyed_accounts : List B256
deriving DecidableEq, Repr

/-- The empty (default) prefix-set bundle. -/
def TriePrefixSets.default : TriePrefixSets := ⟨[], [], []⟩

/-- Inclusive block-number range (`RangeInclusive<BlockNumber>`). -/
structure RangeInclusive where
  lo : Nat
  hi : Nat
deriving DecidableEq, Repr

/-- State-root error: wraps a storage engine error met during a root
computation (`reth_execution_errors::StateRootError`). -/
inductive StateRootError where
  | database (e : DatabaseError)
deriving DecidableEq, Repr

/-- Modelled from the spec: the `reth_trie::StateRoot` calculator's
configuration (not part of the shown sources) — both cursor factories are
the transaction itself (an abstract transaction state `T`), plus the
early-exit node-visit threshold and the prefix-set bundle.  `new` leaves
threshold and prefix sets at placeholder values; `from_tx` overrides both
explicitly, so their initial values are never observed through the shown
entry points. -/
structure StateRoot (T : Type) where
  tx : T
  threshold : Nat
  prefix_sets : TriePrefixSets

/-- `StateRoot::new`: a calculator over the given transaction. -/
def StateRoot.new {T : Type} (tx : T) : StateRoot T :=
  ⟨tx, 0, TriePrefixSets.default⟩

/-- `StateRoot::with_threshold`: replace the early-exit threshold. -/
def StateRoot.with_threshold {T : Type} (c : StateRoot T) (t : Nat) :
    StateRoot T :=
  { c with threshold := t }

/-- `StateRoot::with_prefix_sets`: replace the prefix-set bundle. -/
def StateRoot.with_prefix_sets {T : Type} (c : StateRoot T)
    (ps : TriePrefixSets) : StateRoot T :=
  { c with prefix_sets := ps }

/-- `state_root::from_tx` (trie.rs lines 19–28): a calculator over the
transaction with threshold 100 000 and the default prefix sets. -/
def state_root.from_tx {T : Type} (tx : T) : StateRoot T :=
  ((StateRoot.new tx).with_threshold 100000).with_prefix_sets
    TriePrefixSets.default

/-- `state_root::incremental_root_calculator` (trie.rs lines 36–42):
load the prefix sets for the block range (`PrefixSetLoader`, external,
abstracted as the `loader` argument) and install them on a `from_tx`
calculator. -/
def state_root.incremental_root_calculator {T : Type}
    (loader : T → RangeInclusive → Except StateRootError TriePrefixSets)
    (tx : T) (range : RangeInclusive) :
    Except StateRootError (StateRoot T) :=
  (loader tx range).map
    (fun ps => (state_root.from_tx tx).with_prefix_sets ps)

/-- C10: `from_tx` configures the calculator with an early-exit threshold
of exactly 100 000 and the empty (default) prefix-set bundle over the
given transaction, and every calculator built by
`incremental_root_calculator` keeps that same threshold and transaction,
replacing only the prefix sets with the loaded ones. -/
theorem claimC10_from_tx_configuration {T : Type} (tx : T)
    (loader : T → RangeInclusive → Except StateRootError TriePrefixSets)
    (range : RangeInclusive) :
    (state_root.from_tx tx).threshold = 100000 ∧
    (state_root.from_tx tx).prefix_sets = TriePrefixSets.default ∧
    (state_root.from_tx tx).tx = tx ∧
    ∀ ps, loader tx range = Except.ok ps →
      state_root.incremental_root_calculator loader tx range =
        Except.ok ⟨tx, 100000, ps⟩ := by
  refine ⟨rfl, rfl, rfl, ?_⟩
  intro ps hps
  unfold state_root.incremental_root_calculator
  rw [hps]
  rfl

/-- Witness for C10: a trivial loader returning a concrete prefix-set
bundle; the incremental calculator keeps threshold 100 000 and installs
exactly that bundle. -/
theorem claimC10_from_tx_configuration_witness :
    state_root.incremental_root_calculator
        (fun (_ : Unit) (_ : RangeInclusive) =>
          Except.ok (⟨[[1]], [], []⟩ : TriePrefixSets))
        () ⟨0, 5⟩ =
      Except.ok ⟨(), 100000, ⟨[[1]], [], []⟩⟩ :=
  (claimC10_from_tx_configuration ()
      (fun _ _ => Except.ok (⟨[[1]], [], []⟩ : TriePrefixSets)) ⟨0, 5⟩).2.2.2
    ⟨[[1]], [], []⟩ rfl

/-- Cantor-style pairing, the basis of the stand-in node hash. -/
def natPair (a b : Nat) : Nat := (a + b) * (a + b + 1) / 2 + a

/-- Stand-in encoding of a nibble path as a natural number. -/
def encodeNibbles (p : Nibbles) : Nat :=
  p.foldl (fun acc n => natPair acc n + 1) 0

/-- Stand-in encoding of a branch node, in place of the external
RLP/keccak codec. -/
def encodeNode (n : BranchNodeCompact) : Nat :=
  natPair n.state_mask (natPair n.tree_mask (natPair n.hash_mask
    (natPair (n.hashes.foldl natPair 0)
      (match n.root_hash with | none => 0 | some h => h + 1))))

/-- Modelled from the spec: the root hash obtained by combining, in walk
order, every trie node emitted by a completed walk (stands in for the
external Merkle-Patricia-Trie RLP hashing rules). -/
def combineRoot (nodes : List (Nibbles × BranchNodeCompact)) : B256 :=
  nodes.foldl
    (fun acc e => natPair acc (natPair (encodeNibbles e.1) (encodeNode e.2)))
    1

/-- Progress of a root computation
(`reth_trie::StateRootProgress`): either a final root hash with the
accumulated trie updates, or an intermediate checkpoint carrying the
last nibble path processed and the partially accumulated updates. -/
inductive StateRootProgress where
  | complete (root : B256) (updates : List (Nibbles × BranchNodeCompact))
  | progress (lastPath : Nibbles)
      (partialUpdates : List (Nibbles × BranchNodeCompact))
deriving DecidableEq, Repr

/-- Modelled from the spec: the checkpointable walk (§4.4, §9 — an
explicit work list of (nibble path, node) items).  With a budget, the
walk yields an intermediate checkpoint once the iteration budget for this
invocation is exhausted with work remaining; with no budget it runs to
completion, returning the root over all emitted nodes and the complete
update set. -/
def walkLoop (budget : Option Nat)
    (acc : List (Nibbles × BranchNodeCompact)) :
    List (Nibbles × BranchNodeCompact) → StateRootProgress
  | [] => StateRootProgress.complete (combineRoot acc) acc
  | item :: rest =>
    match budget with
    | some 0 => StateRootProgress.progress item.1 acc
    | some (b + 1) => walkLoop (some b) (acc ++ [item]) rest
    | none => walkLoop none (acc ++ [item]) rest

/-- `StateRoot::root_with_progress`: the walk bounded by the configured
threshold. -/
def StateRoot.root_with_progress {T : Type} (c : StateRoot T)
    (work : List (Nibbles × BranchNodeCompact)) : StateRootProgress :=
  walkLoop (some c.threshold) [] work

/-- `StateRoot::root_with_updates`: the walk with no iteration budget —
the configured threshold is not consulted. -/
def StateRoot.root_with_updates {T : Type} (_c : StateRoot T)
    (work : List (Nibbles × BranchNodeCompact)) : StateRootProgress :=
  walkLoop none [] work

/-- `state_root::incremental_root_with_updates` (trie.rs lines 66–72):
build the incremental calculator for the range, then run
`root_with_updates` on it. -/
def state_root.incremental_root_with_updates {T : Type}
    (loader : T → RangeInclusive → Except StateRootError TriePrefixSets)
    (tx : T) (range : RangeInclusive)
    (work : List (Nibbles × BranchNodeCompact)) :
    Except StateRootError StateRootProgress :=
  (state_root.incremental_root_calculator loader tx range).map
    (fun c => StateRoot.root_with_updates c work)

/-- An unbudgeted walk always runs to completion, emitting every work
item. -/
theorem walkLoop_none_complete :
    ∀ (work acc : List (Nibbles × BranchNodeCompact)),
      walkLoop none acc work =
        StateRootProgress.complete (combineRoot (acc ++ work)) (acc ++ work)
  | [], acc => by simp [walkLoop]
  | item :: rest, acc => by
    rw [walkLoop]
    rw [walkLoop_none_complete rest (acc ++ [item])]
    simp

/-- C8: `incremental_root_with_updates` ignores the configured early-exit
threshold — `root_with_updates` is unchanged under any `with_threshold`,
and whenever the prefix-set loader succeeds the result is a final root
paired with the complete update set (every work item), never an
intermediate checkpoint, however the work size compares to the
threshold. -/
theorem claimC8_root_with_updates_ignores_threshold {T : Type}
    (loader : T → RangeInclusive → Except StateRootError TriePrefixSets)
    (tx : T) (range : RangeInclusive)
    (work : List (Nibbles × BranchNodeCompact)) :
    (∀ (c : StateRoot T) (t : Nat),
      StateRoot.root_with_updates (c.with_threshold t) work =
        StateRoot.root_with_updates c work) ∧
    (∀ res,
      state_root.incremental_root_with_updates loader tx range work =
          Except.ok res →
        res = StateRootProgress.complete (combineRoot work) work) := by
  constructor
  · intro c t
    rfl
  · intro res h
    unfold state_root.incremental_root_with_updates
      state_root.incremental_root_calculator at h
    cases hl : loader tx range with
    | error e => rw [hl] at h; exact absurd h (by simp [Except.map])
    | ok ps =>
      rw [hl] at h
      simp only [Except.map] at h
      injection h with h1
      rw [← h1]
      unfold StateRoot.root_with_updates
      rw [walkLoop_none_complete work []]
      simp

/-- Witness for C8: with a trivial loader and a one-item work list, the
incremental root-with-updates run returns the completed root with the
full update set. -/
theorem claimC8_root_with_updates_ignores_threshold_witness :
    StateRootProgress.complete
        (combineRoot [([1], sampleBranchNode)]) [([1], sampleBranchNode)] =
      StateRootProgress.complete
        (combineRoot [([1], sampleBranchNode)]) [([1], sampleBranchNode)] :=
  (claimC8_root_with_updates_ignores_threshold
      (fun (_ : Unit) (_ : RangeInclusive) =>
        Except.ok TriePrefixSets.default)
      () ⟨0, 5⟩ [([1], sampleBranchNode)]).2
    (StateRootProgress.complete
      (combineRoot [([1], sampleBranchNode)]) [([1], sampleBranchNode)])
    (by rfl)

/-- Hashed-state leaves feeding a root computation: (full nibble path from
the current subtree root, leaf payload).  The payload abstracts the
RLP-encodable leaf value (account data incorporating its storage root, or
a storage slot value). -/
abbrev Leaves := List (Nibbles × Nat)

/-- Termination measure for trie walks: total path length plus one per
leaf. -/
def leavesMeasure (ls : Leaves) : Nat :=
  (ls.map (fun e => e.1.length + 1)).sum

/-- The leaves of child subtree `i`: leaves whose path starts with nibble
`i`, with that nibble stripped. -/
def childGroup (i : Nat) (ls : Leaves) : Leaves :=
  ls.filterMap (fun e =>
    match e.1 with
    | [] => none
    | n :: rest => if n = i then some (rest, e.2) else none)

/-- The payloads of leaves terminating at the current subtree root. -/
def valsHere (ls : Leaves) : List Nat :=
  ls.filterMap (fun e =>
    match e.1 with
    | [] => some e.2
    | _ :: _ => none)

theorem childGroup_measure (i : Nat) :
    ∀ ls : Leaves,
      leavesMeasure (childGroup i ls) + ls.length ≤ leavesMeasure ls := by
  intro ls
  induction ls with
  | nil => simp [childGroup, leavesMeasure]
  | cons e rest ih =>
    cases he : e.1 with
    | nil =>
      simp only [childGroup, List.filterMap_cons, he, leavesMeasure,
        List.map_cons, List.sum_cons, List.length_cons] at *
      omega
    | cons n p =>
      by_cases hni : n = i
      · simp only [childGroup, List.filterMap_cons, he, hni, if_true,
          eq_self_iff_true, leavesMeasure, List.map_cons, List.sum_cons,
          List.length_cons] at *
        omega
      · simp only [childGroup, List.filterMap_cons, he, if_neg hni,
          leavesMeasure, List.map_cons, List.sum_cons,
          List.length_cons] at *
        omega

theorem childGroup_measure_lt (i : Nat) {ls : Leaves} (h : ls ≠ []) :
    leavesMeasure (childGroup i ls) < leavesMeasure ls := by
  have h1 := childGroup_measure i ls
  have h2 : 1 ≤ ls.length := by
    cases ls with
    | nil => exact absurd rfl h
    | cons a as => simp
  omega

/-- Stand-in encoding of a list of naturals. -/
def encodeNatList (l : List Nat) : Nat := l.foldl natPair 0

/-- Stand-in encoding of an optional hash. -/
def encodeOptNat : Option Nat → Nat
  | none => 0
  | some h => h + 1

/-- Stand-in encoding of the 16 child hash slots of a branch. -/
def encodeOptList (l : List (Option Nat)) : Nat :=
  (l.map encodeOptNat).foldl natPair 0

/-- Modelled from the spec: the canonical root hash of the radix trie over
the given leaves — `none` for an empty subtree, otherwise a hash
combining the payloads terminating here with the 16 child subtree
hashes.  Stands in for the from-scratch Merkle-Patricia-Trie hash, with
the external RLP/keccak codec abstracted by `natPair` encodings. -/
def trootOpt (ls : Leaves) : Option Nat :=
  if h : ls = [] then none
  else
    some (natPair (encodeNatList (valsHere ls))
      (encodeOptList
        ((List.range 16).map (fun i => trootOpt (childGroup i ls)))))
termination_by leavesMeasure ls
decreasing_by
  exact childGroup_measure_lt i h

/-- Does the subtree rooted at path `p` intersect the prefix set, i.e. is
some changed full path an extension of `p`? -/
def touchesPrefixSet (ps : List Nibbles) (p : Nibbles) : Bool :=
  ps.any (fun q => p.isPrefixOf q)

/-- Modelled from the spec: the incremental merge-walk of §4.4 over the
post-change leaves.  At the subtree rooted at path `p`: when no prefix of
the changed-path set intersects the subtree and a stored node hash exists
for `p`, reuse it unchanged (pass-through); otherwise recompute the
branch from the leaf payloads terminating here and the recursively
computed child hashes. -/
def incRootOpt (stored : Nibbles → Option Nat) (ps : List Nibbles)
    (p : Nibbles) (ls : Leaves) : Option Nat :=
  if h : ls = [] then none
  else
    match (if touchesPrefixSet ps p then none else stored p) with
    | some hsh => some hsh
    | none =>
      some (natPair (encodeNatList (valsHere ls))
        (encodeOptList
          ((List.range 16).map
            (fun i => incRootOpt stored ps (p ++ [i]) (childGroup i ls)))))
termination_by leavesMeasure ls
decreasing_by
  exact childGroup_measure_lt i h

/-- The leaves of the subtree reached from `ls` along path `p`. -/
def subAt (ls : Leaves) : Nibbles → Leaves
  | [] => ls
  | i :: rest => subAt (childGroup i ls) rest

theorem subAt_append (i : Nat) :
    ∀ (p : Nibbles) (ls : Leaves),
      subAt ls (p ++ [i]) = childGroup i (subAt ls p)
  | [], _ => rfl
  | j :: p', ls => by
    simp only [List.cons_append, subAt]
    exact subAt_append i p' (childGroup j ls)

/-- Core of the round-trip property: when the stored node hashes agree
with the canonical post-state subtree hashes on every subtree the prefix
set leaves untouched, the incremental walk computes exactly the canonical
root of the post-state subtree it is started on. -/
theorem incRootOpt_eq_trootOpt (stored : Nibbles → Option Nat)
    (ps : List Nibbles) (post : Leaves)
    (hstored : ∀ q, touchesPrefixSet ps q = false →
      stored q = trootOpt (subAt post q)) :
    ∀ (n : Nat) (p : Nibbles), leavesMeasure (subAt post p) ≤ n →
      incRootOpt stored ps p (subAt post p) = trootOpt (subAt post p) := by
  intro n
  induction n with
  | zero =>
    intro p hp
    have hnil : subAt post p = [] := by
      cases hx : subAt post p with
      | nil => rfl
      | cons a as =>
        rw [hx] at hp
        simp [leavesMeasure] at hp
    rw [hnil, incRootOpt, trootOpt]
    simp
  | succ n ih =>
    intro p hp
    by_cases hnil : subAt post p = []
    · rw [hnil, incRootOpt, trootOpt]
      simp
    · by_cases htouch : touchesPrefixSet ps p = true
      · have hmap : (List.range 16).map
            (fun i => incRootOpt stored ps (p ++ [i])
              (childGroup i (subAt post p))) =
            (List.range 16).map
              (fun i => trootOpt (childGroup i (subAt post p))) := by
          apply List.map_congr_left
          intro i _
          rw [← subAt_append i p post]
          apply ih
          have hlt := childGroup_measure_lt i hnil
          rw [subAt_append i p post]
          omega
        rw [incRootOpt, trootOpt, dif_neg hnil, dif_neg hnil,
          if_pos htouch, hmap]
      · have hfalse : touchesPrefixSet ps p = false := by
          cases hx : touchesPrefixSet ps p with
          | false => rfl
          | true => exact absurd hx htouch
        rw [incRootOpt, dif_neg hnil, if_neg htouch, hstored p hfalse]
        cases hr : trootOpt (subAt post p) with
        | none =>
          rw [trootOpt, dif_neg hnil] at hr
          exact absurd hr (by simp)
        | some r =>
          rfl

/-- The incremental walk started at the trie root over the whole
post-state. -/
theorem incRootOpt_root_eq (stored : Nibbles → Option Nat)
    (ps : List Nibbles) (post : Leaves)
    (hstored : ∀ q, touchesPrefixSet ps q = false →
      stored q = trootOpt (subAt post q)) :
    incRootOpt stored ps [] post = trootOpt post :=
  incRootOpt_eq_trootOpt stored ps post hstored
    (leavesMeasure post) [] le_rfl

/-- Modelled from the spec: `StateRoot::root` — the merge-walk from the
trie root over the transaction's current hashed-state leaves, guided by
the calculator's account prefix set, reusing stored trie-node hashes for
untouched subtrees.  The stored nodes and the leaves are the
transaction's table contents, passed explicitly; the empty trie's root is
the canonical empty marker 0. -/
def StateRoot.root {T : Type} (c : StateRoot T)
    (stored : Nibbles → Option Nat) (post : Leaves) : B256 :=
  (incRootOpt stored c.prefix_sets.account_prefix_set [] post).getD 0

/-- `state_root::incremental_root` (trie.rs lines 50–56): build the
incremental calculator for the block range and compute the root over the
transaction's stored trie nodes and current hashed-state leaves. -/
def state_root.incremental_root {T : Type}
    (loader : T → RangeInclusive → Except StateRootError TriePrefixSets)
    (tx : T) (range : RangeInclusive)
    (stored : Nibbles → Option Nat) (post : Leaves) :
    Except StateRootError B256 :=
  (state_root.incremental_root_calculator loader tx range).map
    (fun c => c.root stored post)

/-- C2: computing the state root incrementally over a block range — with
pre-state stored nodes that are still canonical on every subtree the
loaded prefix sets leave untouched — and committing the updates (after
which the stored nodes are canonical everywhere) yields the same root as
`state_root::from_tx` computing it from scratch over the final state. -/
theorem claimC2_incremental_root_equals_from_scratch {T : Type}
    (loader : T → RangeInclusive → Except StateRootError TriePrefixSets)
    (tx : T) (range : RangeInclusive) (ps : TriePrefixSets)
    (storedPre storedPost : Nibbles → Option Nat) (post : Leaves)
    (hload : loader tx range = Except.ok ps)
    (hpre : ∀ q, touchesPrefixSet ps.account_prefix_set q = false →
      storedPre q = trootOpt (subAt post q))
    (hpost : ∀ q, storedPost q = trootOpt (subAt post q)) :
    state_root.incremental_root loader tx range storedPre post =
      Except.ok
        (StateRoot.root (state_root.from_tx tx) storedPost post) := by
  unfold state_root.incremental_root
    state_root.incremental_root_calculator
  rw [hload]
  simp only [Except.map]
  congr 1
  unfold StateRoot.root
  have h1 : ((state_root.from_tx tx).with_prefix_sets
      ps).prefix_sets.account_prefix_set = ps.account_prefix_set := rfl
  have h2 : (state_root.from_tx tx).prefix_sets.account_prefix_set =
      ([] : List Nibbles) := rfl
  rw [h1, h2]
  rw [incRootOpt_root_eq storedPre ps.account_prefix_set post hpre]
  rw [incRootOpt_root_eq storedPost [] post (fun q _ => hpost q)]

/-- Post-change hashed-state leaves for the C2 witness. -/
def c2WitnessPost : Leaves := [([1], 5)]

/-- Loaded prefix sets for the C2 witness: the changed account path. -/
def c2WitnessPrefixSets : TriePrefixSets := ⟨[[1]], [], []⟩

/-- Pre-state stored nodes for the C2 witness: canonical exactly on the
subtrees untouched by the changed path. -/
def c2WitnessStoredPre : Nibbles → Option Nat := fun q =>
  if touchesPrefixSet [[1]] q then none else trootOpt (subAt c2WitnessPost q)

/-- Post-commit stored nodes for the C2 witness: canonical everywhere. -/
def c2WitnessStoredPost : Nibbles → Option Nat := fun q =>
  trootOpt (subAt c2WitnessPost q)

/-- Witness for C2: on a one-account post state with its path marked
changed, the incremental root over the pre-state store equals the
from-scratch root over the committed store. -/
theorem claimC2_incremental_root_equals_from_scratch_witness :
    state_root.incremental_root
        (fun (_ : Unit) (_ : RangeInclusive) =>
          Except.ok c2WitnessPrefixSets)
        () ⟨0, 3⟩ c2WitnessStoredPre c2WitnessPost =
      Except.ok
        (StateRoot.root (state_root.from_tx ())
          c2WitnessStoredPost c2WitnessPost) :=
  claimC2_incremental_root_equals_from_scratch
    (fun _ _ => Except.ok c2WitnessPrefixSets) () ⟨0, 3⟩
    c2WitnessPrefixSets c2WitnessStoredPre c2WitnessStoredPost
    c2WitnessPost rfl
    (fun q hq => by
      have hq' : touchesPrefixSet [[1]] q = false := hq
      simp [c2WitnessStoredPre, hq'])
    (fun _ => rfl)
